import Mathlib

/-!
Verification of the llmctx selection store and token estimation engine.

The definitions below are a shallow embedding of
`crates/llmctx/src/app/selection.rs` and `crates/llmctx/src/app/tokens.rs`.
File contents are modelled as `List Char` (the sequence of Unicode scalar
values obtained from `String::from_utf8_lossy`), paths and notes as `String`,
and the filesystem / tokenizer back-ends as an explicit environment record.
`usize` values are modelled as `Nat` (the saturating additions in the source
cannot overflow in `Nat`), and the `f32` heuristic arithmetic is modelled
exactly over `ℚ`.
-/

namespace Llmctx

/-- One tracked selection: a path, an optional 1-based inclusive line range,
and an optional note.  Mirrors `SelectionItem` in `domain/model.rs`. -/
structure SelectionItem where
  path : String
  range : Option (Nat × Nat)
  note : Option String
  deriving DecidableEq, Repr

/-- Ordered selections plus an optional model-override string.
Mirrors `ContextBundle`. -/
structure ContextBundle where
  items : List SelectionItem
  model : Option String
  deriving DecidableEq, Repr

/-- `normalize_range` from `selection.rs`: swap a reversed range and floor
both endpoints at 1. -/
def normalize_range (range : Nat × Nat) : Nat × Nat :=
  (max (min range.1 range.2) 1, max (max range.1 range.2) 1)

/-- `ranges_mergeable` from `selection.rs`: two ranges merge when they overlap
or touch.  (`saturating_add 1` on `usize` is plain `+ 1` on `Nat`.) -/
def ranges_mergeable (a b : Nat × Nat) : Bool :=
  decide (a.1 ≤ b.2 + 1) && decide (b.1 ≤ a.2 + 1)

/-- `clean_note` from `selection.rs`: trim, and drop the note when empty. -/
def clean_note (note : String) : Option String :=
  let trimmed := note.trim
  if trimmed = "" then none else some trimmed

/-- Insert an element at position `n` (the effect of `Vec::insert`). -/
def insert_at (l : List SelectionItem) (n : Nat) (x : SelectionItem) :
    List SelectionItem :=
  l.take n ++ x :: l.drop n

/-- The removal loop of `insert_entire_file`: drop every entry for the path,
returning the kept entries, the index of the first removed entry (an index
into the original list, which is also the correct insertion index into the
kept list because everything before it is kept), and the first non-empty note
among the removed entries. -/
def remove_all_for_path (p : String) :
    List SelectionItem → List SelectionItem × Option Nat × Option String
  | [] => ([], none, none)
  | it :: rest =>
    let r := remove_all_for_path p rest
    if it.path = p then
      (r.1, some 0, if it.note.isSome then it.note else r.2.2)
    else
      (it :: r.1, r.2.1.map (· + 1), r.2.2)

/-- `SelectionManager::insert_entire_file`. -/
def insert_entire_file (items : List SelectionItem) (item : SelectionItem) :
    List SelectionItem × SelectionItem :=
  let r := remove_all_for_path item.path items
  let note := if item.note.isSome then item.note else r.2.2
  let newItem : SelectionItem := { item with note := note }
  let position := r.2.1.getD r.1.length
  (insert_at r.1 position newItem, newItem)

/-- The early-return branch of `insert_range`: when a whole-file entry for the
path exists, update its note when a new note was supplied and return it;
the rest of the store is untouched. -/
def update_whole_file (p : String) (note : Option String) :
    List SelectionItem → Option (List SelectionItem × SelectionItem)
  | [] => none
  | it :: rest =>
    if it.path = p ∧ it.range = none then
      let updated := if note.isSome then { it with note := note } else it
      some (updated :: rest, updated)
    else
      (update_whole_file p note rest).map (fun r => (it :: r.1, r.2))

/-- The merge loop of `insert_range`: scan the entries in order; same-path
ranged entries that overlap or touch the (growing) new range are dropped and
their span absorbed; the first non-empty note among them is inherited when no
note was supplied.  Same-path whole-file entries cannot occur here: the caller
handles them with `update_whole_file` before calling this. -/
def merge_pass (p : String) :
    List SelectionItem → (Nat × Nat) → Option String →
      (Nat × Nat) × Option String × List SelectionItem
  | [], r, n => (r, n, [])
  | it :: rest, r, n =>
    if it.path = p then
      match it.range with
      | some er =>
        if ranges_mergeable r er then
          merge_pass p rest (min r.1 er.1, max r.2 er.2)
            (if n.isSome then n else it.note)
        else
          let res := merge_pass p rest r n
          (res.1, res.2.1, it :: res.2.2)
      | none =>
        let res := merge_pass p rest r n
        (res.1, res.2.1, it :: res.2.2)
    else
      let res := merge_pass p rest r n
      (res.1, res.2.1, it :: res.2.2)

/-- Index of the last same-path entry, as in the `rev().find()` fallback of
`insert_range`'s position computation. -/
def last_same_path_idx (p : String) : List SelectionItem → Option Nat
  | [] => none
  | it :: rest =>
    match last_same_path_idx p rest with
    | some i => some (i + 1)
    | none => if it.path = p then some 0 else none

/-- Index of the first entry satisfying a predicate
(`iter().enumerate().find(...)`). -/
def first_idx_where (pred : SelectionItem → Bool) : List SelectionItem → Option Nat
  | [] => none
  | it :: rest =>
    if pred it then some 0 else (first_idx_where pred rest).map (· + 1)

/-- The insertion-position computation of `insert_range`: the first remaining
same-path entry whose start exceeds the new end, else one past the last
same-path entry, else the end of the list. -/
def find_insert_pos (kept : List SelectionItem) (p : String) (r : Nat × Nat) :
    Nat :=
  match first_idx_where (fun it =>
      decide (it.path = p) &&
        (match it.range with
         | some er => decide (er.1 > r.2)
         | none => false)) kept with
  | some idx => idx
  | none =>
    match last_same_path_idx p kept with
    | some idx => idx + 1
    | none => kept.length

/-- `SelectionManager::insert_range`. -/
def insert_range (items : List SelectionItem) (item : SelectionItem)
    (range : Nat × Nat) : List SelectionItem × SelectionItem :=
  match update_whole_file item.path item.note items with
  | some res => res
  | none =>
    let m := merge_pass item.path items range item.note
    let newItem : SelectionItem :=
      { item with
          range := some m.1
          note := if item.note.isSome then item.note else m.2.1 }
    let position := find_insert_pos m.2.2 item.path m.1
    (insert_at m.2.2 position newItem, newItem)

/-- `SelectionManager::add_selection`. -/
def add_selection (items : List SelectionItem) (path : String)
    (range : Option (Nat × Nat)) (note : Option String) :
    List SelectionItem × SelectionItem :=
  let item : SelectionItem :=
    { path := path, range := range.map normalize_range,
      note := note.bind clean_note }
  match item.range with
  | none => insert_entire_file items item
  | some r => insert_range items item r

/-- `SelectionManager::remove_selection`. -/
def remove_selection (items : List SelectionItem) (p : String)
    (range : Option (Nat × Nat)) : List SelectionItem × Bool :=
  let kept :=
    match range.map normalize_range with
    | none => items.filter (fun it => decide ¬(it.path = p))
    | some target =>
      items.filter (fun it =>
        if it.path = p then decide ¬(it.range = some target) else true)
  (kept, decide ¬(kept.length = items.length))

/-- `SelectionManager::set_note`: update the note of the first exact match. -/
def set_note_go (p : String) (nr : Option (Nat × Nat)) (note : Option String) :
    List SelectionItem → List SelectionItem × Bool
  | [] => ([], false)
  | it :: rest =>
    if it.path = p ∧ it.range = nr then
      ({ it with note := note } :: rest, true)
    else
      let r := set_note_go p nr note rest
      (it :: r.1, r.2)

/-- `SelectionManager::set_note`. -/
def set_note (items : List SelectionItem) (p : String)
    (range : Option (Nat × Nat)) (note : Option String) :
    List SelectionItem × Bool :=
  set_note_go p (range.map normalize_range) (note.bind clean_note) items

/-- `SelectionManager::clear` (the item-list part; the model reset is not
range-relevant). -/
def clear_store (_items : List SelectionItem) : List SelectionItem := []

/-! ## Text primitives (Rust `str` operations on `List Char`) -/

/-- Rust `str::trim` on a character sequence. -/
def rust_trim (l : List Char) : List Char :=
  ((l.dropWhile Char.isWhitespace).reverse.dropWhile Char.isWhitespace).reverse

/-- Word counting as in `count_words` of `tokens.rs`
(`split_whitespace().filter(|s| !s.is_empty()).count()`): the number of
maximal non-whitespace runs.  `inWord` tracks whether the scan is currently
inside a word. -/
def count_words_aux (inWord : Bool) : List Char → Nat
  | [] => 0
  | c :: rest =>
    if c.isWhitespace then count_words_aux false rest
    else (if inWord then 0 else 1) + count_words_aux true rest

/-- `count_words` from `tokens.rs`. -/
def count_words (l : List Char) : Nat := count_words_aux false l

/-- Split a character sequence at newline characters, keeping empty pieces
(the behaviour of `str::split('\n')`). -/
def split_nl : List Char → List (List Char)
  | [] => [[]]
  | c :: rest =>
    if c = '\n' then [] :: split_nl rest
    else
      match split_nl rest with
      | [] => [[c]]
      | piece :: pieces => (c :: piece) :: pieces

/-- Strip one trailing carriage return, as Rust's line iterator does for
`\r\n` endings. -/
def strip_cr (l : List Char) : List Char :=
  if l.getLast? = some '\r' then l.dropLast else l

/-- Rust `str::lines`: split at `\n`, drop the trailing empty piece produced
by a final line terminator, strip a trailing `\r` from each line. -/
def rust_lines (l : List Char) : List (List Char) :=
  let parts := split_nl l
  let parts := if parts.getLast? = some [] then parts.dropLast else parts
  parts.map strip_cr

/-- `Vec<&str>::join("\n")`. -/
def join_nl (lines : List (List Char)) : List Char :=
  (lines.intersperse ['\n']).flatten

/-! ## Token models and heuristics -/

/-- `TokenModel` from `tokens.rs`. -/
inductive TokenModel where
  | openAiGpt4o
  | openAiGpt4oMini
  | anthropicClaude3Haiku
  | anthropicClaude35Sonnet
  | characterFallback
  deriving DecidableEq, Repr

/-- `TokenModel::from_str` (case-insensitive, with aliases). -/
def TokenModel.fromStr (value : String) : Option TokenModel :=
  let normalized := value.trim.toLower
  if normalized = "openai:gpt-4o" then some .openAiGpt4o
  else if normalized = "openai:gpt-4o-mini" then some .openAiGpt4oMini
  else if normalized = "anthropic:claude-3-haiku" then some .anthropicClaude3Haiku
  else if normalized = "anthropic:claude-3.5-sonnet" then some .anthropicClaude35Sonnet
  else if normalized = "fallback:characters" ∨ normalized = "heuristic" ∨
      normalized = "fallback" then some .characterFallback
  else none

/-- `HeuristicConfig`, with the `f32` parameters modelled exactly in `ℚ`. -/
structure HeuristicConfig where
  default_chars_per_token : ℚ
  anthropic_chars_per_token : ℚ
  tokens_per_word : ℚ
  code_token_multiplier : ℚ
  deriving DecidableEq, Repr

/-- `HeuristicConfig::default()`:
`{ 4.0, 3.2, 1.0, 1.25 }`. -/
def HeuristicConfig.default : HeuristicConfig :=
  { default_chars_per_token := 4
    anthropic_chars_per_token := 16 / 5
    tokens_per_word := 1
    code_token_multiplier := 5 / 4 }

/-- `HeuristicConfig::chars_per_token_for`. -/
def HeuristicConfig.chars_per_token_for (cfg : HeuristicConfig)
    (model : TokenModel) : ℚ :=
  match model with
  | .anthropicClaude3Haiku | .anthropicClaude35Sonnet =>
    cfg.anthropic_chars_per_token
  | _ => cfg.default_chars_per_token

/-- `HeuristicConfig::estimate`.  The `as usize` casts of the non-negative
`ceil` results are `Int.toNat`. -/
def HeuristicConfig.estimate (cfg : HeuristicConfig) (text : List Char)
    (model : TokenModel) (is_code : Bool) : Nat :=
  if rust_trim text = [] then 0
  else
    let chars : ℚ := text.length
    let words : ℚ := count_words text
    let char_based : ℤ := ⌈chars / cfg.chars_per_token_for model⌉
    let word_based : ℤ := ⌈words * cfg.tokens_per_word⌉
    let estimate : Nat := (max char_based word_based).toNat
    let estimate : Nat :=
      if is_code then (⌈(estimate : ℚ) * cfg.code_token_multiplier⌉).toNat
      else estimate
    max estimate 1

/-- Split a character sequence at dots, keeping empty pieces. -/
def split_dot : List Char → List (List Char)
  | [] => [[]]
  | c :: rest =>
    if c = '.' then [] :: split_dot rest
    else
      match split_dot rest with
      | [] => [[c]]
      | piece :: pieces => (c :: piece) :: pieces

/-- `Path::extension()` on a slash-separated path: the part of the final
component after its last dot, absent when there is no dot or when the only
dot is the leading one of a hidden file. -/
def path_extension (p : String) : Option (List Char) :=
  let name := (p.toList.reverse.takeWhile (fun c => decide ¬(c = '/'))).reverse
  match split_dot name with
  | [] => none
  | [_] => none
  | first :: rest =>
    if first = [] ∧ rest.length = 1 then none else some (rest.getLastD [])

/-- `is_probably_code` from `tokens.rs`. -/
def is_probably_code (p : String) : Bool :=
  match path_extension p with
  | some ext =>
    decide (ext ∈ ["rs".toList, "ts".toList, "js".toList, "jsx".toList,
      "tsx".toList, "py".toList, "java".toList, "c".toList, "cpp".toList,
      "cc".toList, "h".toList, "hpp".toList, "go".toList, "rb".toList,
      "php".toList, "cs".toList, "swift".toList, "scala".toList, "kt".toList,
      "sh".toList, "zsh".toList, "fish".toList])
  | none => false

/-! ## Estimation engine -/

/-- `FileFingerprint`: byte length plus modification time in nanoseconds. -/
structure FileFingerprint where
  len : Nat
  modified : Option Nat
  deriving DecidableEq, Repr

/-- `CacheKey` from `tokens.rs`. -/
structure CacheKey where
  model : TokenModel
  path : String
  range : Option (Nat × Nat)
  fingerprint : Option FileFingerprint
  deriving DecidableEq, Repr

/-- `ItemTokenEstimate`. -/
structure ItemTokenEstimate where
  item : SelectionItem
  tokens : Nat
  characters : Nat
  deriving DecidableEq, Repr

/-- The lock-guarded `HashMap<CacheKey, ItemTokenEstimate>` as an
association list (later bindings shadow nothing: a key is inserted only when
absent). -/
def Cache := List (CacheKey × ItemTokenEstimate)

instance : Membership (CacheKey × ItemTokenEstimate) Cache :=
  inferInstanceAs (Membership _ (List _))

/-- Map lookup. -/
def cache_lookup : Cache → CacheKey → Option ItemTokenEstimate
  | [], _ => none
  | (k, e) :: rest, key => if k = key then some e else cache_lookup rest key

/-- A resolved tokenizer: an exact BPE encoder (abstract encoding function)
or the heuristic marker. -/
inductive Tokenizer where
  | bpe (encode : List Char → Nat)
  | heuristic

/-- The external world of the estimator: file reads (`fs::read` +
`from_utf8_lossy`, `none` = IO error), file metadata (`file_fingerprint`,
`none` = metadata error), and tokenizer construction (`tokenizer_for`,
`Except.error` = `TokenizerInitError`). -/
structure Env where
  read : String → Option (List Char)
  fingerprint : String → Option FileFingerprint
  tokenizer : TokenModel → Except Unit Tokenizer

/-- The estimator's own configuration (`TokenEstimator` minus the shared
cache, which is threaded explicitly). -/
structure EstState where
  model : TokenModel
  token_budget : Nat
  heuristics : HeuristicConfig

/-- `BundleTokenSummary`. -/
structure BundleTokenSummary where
  model : TokenModel
  token_budget : Nat
  total_tokens : Nat
  total_characters : Nat
  items : List ItemTokenEstimate
  deriving DecidableEq, Repr

/-- `load_selection_contents` from `tokens.rs` (applied to already-read
content; the read itself is separated out into `Env.read`). -/
def load_selection_contents (text : List Char) (range : Option (Nat × Nat)) :
    List Char :=
  match range with
  | none => text
  | some (start, «end») =>
    let start_idx := start - 1
    let end_idx := max «end» start_idx
    let lines := rust_lines text
    if start_idx ≥ lines.length then []
    else
      let end_idx := min end_idx lines.length
      join_nl ((lines.drop start_idx).take (end_idx - start_idx))

/-- `TokenEstimator::count_tokens`. -/
def count_tokens (env : Env) (heuristics : HeuristicConfig)
    (model : TokenModel) (item : SelectionItem) (contents : List Char) : Nat :=
  if rust_trim contents = [] then 0
  else
    match env.tokenizer model with
    | .ok (.bpe encode) => encode contents
    | .ok .heuristic => heuristics.estimate contents model (is_probably_code item.path)
    | .error _ => heuristics.estimate contents model (is_probably_code item.path)

/-- `TokenEstimator::estimate_item`: build the cache key from the current
fingerprint, return the cached estimate on a hit, otherwise read the file,
slice, count, and insert. -/
def estimate_item (env : Env) (est : EstState) (model : TokenModel)
    (item : SelectionItem) (cache : Cache) :
    Except String ItemTokenEstimate × Cache :=
  let key : CacheKey :=
    { model := model, path := item.path, range := item.range,
      fingerprint := env.fingerprint item.path }
  match cache_lookup cache key with
  | some existing => (.ok existing, cache)
  | none =>
    match env.read item.path with
    | none => (.error ("failed to read selection '" ++ item.path ++ "'"), cache)
    | some raw =>
      let contents := load_selection_contents raw item.range
      let characters := contents.length
      let tokens := count_tokens env est.heuristics model item contents
      let estimate : ItemTokenEstimate :=
        { item := item, tokens := tokens, characters := characters }
      (.ok estimate, (key, estimate) :: cache)

/-- The per-item loop of `estimate_bundle`, threading the cache and aborting
at the first failure (the `?` operator). -/
def estimate_bundle_go (env : Env) (est : EstState) (model : TokenModel) :
    List SelectionItem → Cache → Except String (List ItemTokenEstimate) × Cache
  | [], cache => (.ok [], cache)
  | item :: rest, cache =>
    match estimate_item env est model item cache with
    | (.error e, cache') => (.error e, cache')
    | (.ok est_i, cache') =>
      match estimate_bundle_go env est model rest cache' with
      | (.error e, cache'') => (.error e, cache'')
      | (.ok list, cache'') => (.ok (est_i :: list), cache'')

/-- `TokenEstimator::estimate_bundle`. -/
def estimate_bundle (env : Env) (est : EstState) (bundle : ContextBundle)
    (cache : Cache) : Except String BundleTokenSummary × Cache :=
  let model := (bundle.model.bind TokenModel.fromStr).getD est.model
  match estimate_bundle_go env est model bundle.items cache with
  | (.error e, cache') => (.error e, cache')
  | (.ok list, cache') =>
    (.ok { model := model
           token_budget := est.token_budget
           total_tokens := (list.map (·.tokens)).sum
           total_characters := (list.map (·.characters)).sum
           items := list }, cache')

/-- `TokenEstimator::invalidate_path`. -/
def invalidate_path (cache : Cache) (p : String) : Cache :=
  List.filter (fun kv => decide ¬(kv.1.path = p)) cache

/-! ## Specification predicates and concrete fixtures -/

/-- Every stored range is normalized: `start ≤ end` and `start ≥ 1`. -/
def ranges_normalized (items : List SelectionItem) : Prop :=
  ∀ it ∈ items, ∀ r : Nat × Nat, it.range = some r → 1 ≤ r.1 ∧ r.1 ≤ r.2

/-- Line `n` lies inside some selected range of the store. -/
def covered_by (items : List SelectionItem) (n : Nat) : Prop :=
  ∃ it ∈ items, ∃ r : Nat × Nat, it.range = some r ∧ r.1 ≤ n ∧ n ≤ r.2

/-- The ranged entries appear in ascending order with a gap of at least one
line between consecutive ranges (disjoint and non-touching, sorted). -/
def sorted_gap (items : List SelectionItem) : Prop :=
  List.Pairwise (fun a b => ∀ ra rb : Nat × Nat,
    a.range = some ra → b.range = some rb → ra.2 + 1 < rb.1) items

/-- Fold a sequence of ranged `add_selection` calls for one path over the
empty store. -/
def add_ranges (p : String) (inputs : List ((Nat × Nat) × Option String)) :
    List SelectionItem :=
  inputs.foldl (fun st i => (add_selection st p (some i.1) i.2).1) []

/-- Concrete input sequence used to witness the merge-closure theorem. -/
def inputs_ex : List ((Nat × Nat) × Option String) :=
  [((5, 10), none), ((9, 15), none)]

/-- A filesystem where nothing is readable. -/
def env_unreadable : Env :=
  { read := fun _ => none
    fingerprint := fun _ => none
    tokenizer := fun _ => .ok .heuristic }

/-- A one-file filesystem fixture. -/
def env_one_file : Env :=
  { read := fun p => if p = "f.rs" then some "ab cd\nef\n".toList else none
    fingerprint := fun p => if p = "f.rs" then some ⟨9, some 5⟩ else none
    tokenizer := fun _ => .ok .heuristic }

/-- A default estimator configuration fixture. -/
def est_ex : EstState :=
  { model := .openAiGpt4oMini, token_budget := 120000,
    heuristics := HeuristicConfig.default }

/-- A whole-file selection fixture. -/
def item_ex : SelectionItem := { path := "f.rs", range := none, note := none }

/-- A fixture whose every model resolves to an exact BPE tokenizer (one that
would report a positive count even for empty input, so a zero result can only
come from the short-circuit). -/
def env_bpe : Env :=
  { read := fun _ => some "  ".toList
    fingerprint := fun _ => none
    tokenizer := fun _ => .ok (.bpe (fun l => l.length + 42)) }

/-! ## Helper lemmas: list plumbing -/

theorem mem_insert_at {l : List SelectionItem} {n : Nat} {y x : SelectionItem} :
    x ∈ insert_at l n y ↔ x = y ∨ x ∈ l := by
  unfold insert_at
  constructor
  · intro h
    rcases List.mem_append.mp h with h | h
    · exact Or.inr (List.Sublist.mem h (List.take_sublist n l))
    · rcases List.mem_cons.mp h with h | h
      · exact Or.inl h
      · exact Or.inr (List.Sublist.mem h (List.drop_sublist n l))
  · intro h
    rcases h with rfl | h
    · exact List.mem_append.mpr (Or.inr (List.mem_cons_self _ _))
    · rw [← List.take_append_drop n l] at h
      rcases List.mem_append.mp h with h | h
      · exact List.mem_append.mpr (Or.inl h)
      · exact List.mem_append.mpr (Or.inr (List.mem_cons_of_mem _ h))

theorem remove_all_kept (p : String) (items : List SelectionItem) :
    (remove_all_for_path p items).1
      = items.filter (fun it => decide ¬(it.path = p)) := by
  induction items with
  | nil => rfl
  | cons it rest ih =>
    by_cases h : it.path = p <;>
      simp [remove_all_for_path, List.filter_cons, h, ih]

theorem remove_all_idx (p : String) (items : List SelectionItem) :
    (remove_all_for_path p items).2.1
      = first_idx_where (fun it => decide (it.path = p)) items := by
  induction items with
  | nil => rfl
  | cons it rest ih =>
    by_cases h : it.path = p <;>
      simp [remove_all_for_path, first_idx_where, h, ih]

theorem remove_all_note (p : String) (items : List SelectionItem) :
    (remove_all_for_path p items).2.2
      = ((items.filter (fun it => decide (it.path = p))).filterMap (·.note)).head? := by
  induction items with
  | nil => rfl
  | cons it rest ih =>
    by_cases h : it.path = p
    · cases hn : it.note <;>
        simp [remove_all_for_path, List.filter_cons, List.filterMap_cons, h, hn, ih]
    · simp [remove_all_for_path, List.filter_cons, h, ih]

/-! ## C2: whole-file supersession -/

/-- C2: `add_selection(path, None, note)` leaves exactly one entry for the
path (the returned whole-file item), inserts it at the position previously
held by the first removed same-path entry (or at the end when no entry for
the path existed), and resolves the note as: the supplied (cleaned) note
wins, else the first non-empty note among the removed entries. -/
theorem C2_whole_file_supersession (items : List SelectionItem) (p : String)
    (note : Option String) :
    ((add_selection items p none note).1.filter (fun it => decide (it.path = p))
        = [(add_selection items p none note).2]) ∧
    (add_selection items p none note).2.range = none ∧
    (add_selection items p none note).1 =
      insert_at (items.filter (fun it => decide ¬(it.path = p)))
        ((first_idx_where (fun it => decide (it.path = p)) items).getD
          (items.filter (fun it => decide ¬(it.path = p))).length)
        (add_selection items p none note).2 ∧
    (add_selection items p none note).2.note =
      (note.bind clean_note).or
        (((items.filter (fun it => decide (it.path = p))).filterMap (·.note)).head?) := by
  have hor : ∀ a b : Option String, (if a.isSome then a else b) = a.or b := by
    intro a b; cases a <;> rfl
  have key : add_selection items p none note
      = (insert_at (items.filter (fun it => decide ¬(it.path = p)))
          ((first_idx_where (fun it => decide (it.path = p)) items).getD
            (items.filter (fun it => decide ¬(it.path = p))).length)
          { path := p, range := none,
            note := (note.bind clean_note).or
              (((items.filter (fun it => decide (it.path = p))).filterMap
                (·.note)).head?) },
        { path := p, range := none,
          note := (note.bind clean_note).or
            (((items.filter (fun it => decide (it.path = p))).filterMap
              (·.note)).head?) }) := by
    show insert_entire_file items
        { path := p, range := none, note := note.bind clean_note } = _
    simp only [insert_entire_file, remove_all_kept, remove_all_idx,
      remove_all_note, hor]
  rw [key]
  refine ⟨?_, rfl, rfl, rfl⟩
  -- the only same-path entry in the result is the inserted one
  unfold insert_at
  rw [List.filter_append, List.filter_cons]
  have hkept : ∀ q : List SelectionItem,
      q.Sublist (items.filter (fun it => decide ¬(it.path = p))) →
      q.filter (fun it => decide (it.path = p)) = [] := by
    intro q hq
    rw [List.filter_eq_nil_iff]
    intro a ha
    have := List.mem_filter.mp (List.Sublist.mem ha hq)
    simpa using this.2
  rw [hkept _ (List.take_sublist _ _), hkept _ (List.drop_sublist _ _)]
  simp

/-! ## C8: remove_selection -/

theorem length_filter_not_add (pred : SelectionItem → Bool)
    (l : List SelectionItem) :
    (l.filter (fun a => !(pred a))).length + l.countP pred = l.length := by
  induction l with
  | nil => rfl
  | cons a l ih =>
    by_cases h : pred a = true <;>
      simp [List.filter_cons, List.countP_cons, h, ← ih] <;> omega

/-- C8: `remove_selection(path, None)` removes every entry for the path (the
store length drops by exactly the prior per-path count), the ranged form
removes exactly the entries matching the path and the normalized range, and
the returned boolean is `true` iff at least one entry was removed. -/
theorem C8_remove_selection (items : List SelectionItem) (p : String)
    (r : Nat × Nat) :
    ((remove_selection items p none).1
        = items.filter (fun it => decide ¬(it.path = p))) ∧
    (items.length = (remove_selection items p none).1.length
        + items.countP (fun it => decide (it.path = p))) ∧
    ((remove_selection items p (some r)).1
        = items.filter (fun it =>
            decide ¬(it.path = p ∧ it.range = some (normalize_range r)))) ∧
    ((remove_selection items p none).2 = true ↔ ∃ it ∈ items, it.path = p) ∧
    ((remove_selection items p (some r)).2 = true ↔
      ∃ it ∈ items, it.path = p ∧ it.range = some (normalize_range r)) := by
  have hfil : ∀ it : SelectionItem,
      (if it.path = p then decide ¬(it.range = some (normalize_range r))
        else true)
      = decide ¬(it.path = p ∧ it.range = some (normalize_range r)) := by
    intro it
    by_cases h : it.path = p <;> simp [h]
  have hsome : (remove_selection items p (some r)).1
      = items.filter (fun it =>
          decide ¬(it.path = p ∧ it.range = some (normalize_range r))) := by
    unfold remove_selection
    simp only [Option.map_some']
    exact List.filter_congr (fun x _ => hfil x)
  have hlen : ∀ pred : SelectionItem → Bool,
      (items.filter (fun it => !(pred it))).length + items.countP pred
        = items.length := fun pred => length_filter_not_add pred items
  refine ⟨rfl, ?_, hsome, ?_, ?_⟩
  · have := hlen (fun it => decide (it.path = p))
    have heq : (remove_selection items p none).1
        = items.filter (fun it => !(decide (it.path = p))) := by
      unfold remove_selection
      simp [decide_not]
    rw [heq]
    omega
  · have heq : (remove_selection items p none).1
        = items.filter (fun it => !(decide (it.path = p))) := by
      unfold remove_selection
      simp [decide_not]
    have hb : (remove_selection items p none).2
        = decide ¬((remove_selection items p none).1.length = items.length) :=
      rfl
    rw [hb, heq]
    have := hlen (fun it => decide (it.path = p))
    have hcp : items.countP (fun it => decide (it.path = p)) = 0
        ↔ ∀ it ∈ items, ¬(it.path = p) := by
      rw [List.countP_eq_zero]
      simp
    constructor
    · intro h
      have hne := of_decide_eq_true h
      by_contra hno
      push_neg at hno
      have : items.countP (fun it => decide (it.path = p)) = 0 :=
        hcp.mpr hno
      omega
    · intro ⟨it, hmem, hp⟩
      apply decide_eq_true
      intro hlen'
      have : items.countP (fun it => decide (it.path = p)) = 0 := by omega
      exact (hcp.mp this) it hmem hp
  · have hb : (remove_selection items p (some r)).2
        = decide ¬((remove_selection items p (some r)).1.length = items.length) :=
      rfl
    have heq : (remove_selection items p (some r)).1
        = items.filter (fun it =>
            !(decide (it.path = p ∧ it.range = some (normalize_range r)))) := by
      rw [hsome]
      apply List.filter_congr
      intro x _
      simp [decide_not]
    rw [hb, heq]
    have := hlen (fun it =>
      decide (it.path = p ∧ it.range = some (normalize_range r)))
    have hcp : items.countP (fun it =>
          decide (it.path = p ∧ it.range = some (normalize_range r))) = 0
        ↔ ∀ it ∈ items, ¬(it.path = p ∧ it.range = some (normalize_range r)) := by
      rw [List.countP_eq_zero]
      simp
    constructor
    · intro h
      have hne := of_decide_eq_true h
      by_contra hno
      push_neg at hno
      have h0 : items.countP (fun it =>
          decide (it.path = p ∧ it.range = some (normalize_range r))) = 0 := by
        apply hcp.mpr
        intro it hmem hand
        exact (hno it hmem hand.1) hand.2
      omega
    · intro ⟨it, hmem, hp, hr⟩
      apply decide_eq_true
      intro hlen'
      have h0 : items.countP (fun it =>
          decide (it.path = p ∧ it.range = some (normalize_range r))) = 0 := by
        omega
      exact (hcp.mp h0) it hmem ⟨hp, hr⟩

/-! ## Helper lemmas: merge pass and note updates -/

theorem normalize_range_spec (r : Nat × Nat) :
    1 ≤ (normalize_range r).1 ∧ (normalize_range r).1 ≤ (normalize_range r).2 := by
  unfold normalize_range
  omega

theorem normalize_range_eq_self {r : Nat × Nat} (h1 : 1 ≤ r.1)
    (h2 : r.1 ≤ r.2) : normalize_range r = r := by
  unfold normalize_range
  cases r
  simp only [Prod.mk.injEq]
  omega

theorem merge_pass_sublist (p : String) (l : List SelectionItem)
    (r : Nat × Nat) (n : Option String) :
    (merge_pass p l r n).2.2.Sublist l := by
  induction l generalizing r n with
  | nil => simp [merge_pass]
  | cons it rest ih =>
    by_cases hp : it.path = p
    · cases hr : it.range with
      | some er =>
        by_cases hm : ranges_mergeable r er = true
        · simp only [merge_pass, hp, if_true, hr, hm]
          exact List.Sublist.cons it (ih _ _)
        · simp only [merge_pass, hp, if_true, hr, hm, Bool.false_eq_true,
            if_false]
          exact List.Sublist.cons₂ it (ih _ _)
      | none =>
        simp only [merge_pass, hp, if_true, hr]
        exact List.Sublist.cons₂ it (ih _ _)
    · simp only [merge_pass, hp, if_false]
      exact List.Sublist.cons₂ it (ih _ _)

theorem merge_pass_norm (p : String) (l : List SelectionItem) (r : Nat × Nat)
    (n : Option String) (hr : 1 ≤ r.1 ∧ r.1 ≤ r.2)
    (hl : ranges_normalized l) :
    1 ≤ (merge_pass p l r n).1.1 ∧
      (merge_pass p l r n).1.1 ≤ (merge_pass p l r n).1.2 := by
  induction l generalizing r n with
  | nil => simpa [merge_pass] using hr
  | cons it rest ih =>
    have hl' : ranges_normalized rest := fun x hx => hl x (List.mem_cons_of_mem _ hx)
    by_cases hp : it.path = p
    · cases hrg : it.range with
      | some er =>
        by_cases hm : ranges_mergeable r er = true
        · simp only [merge_pass, hp, if_true, hrg, hm]
          have her := hl it (List.mem_cons_self _ _) er hrg
          exact ih _ _ ⟨by omega, by
            simp only [min_le_iff, le_max_iff]
            omega⟩ hl'
        · simp only [merge_pass, hp, if_true, hrg, hm, Bool.false_eq_true,
            if_false]
          exact ih _ _ hr hl'
      | none =>
        simp only [merge_pass, hp, if_true, hrg]
        exact ih _ _ hr hl'
    · simp only [merge_pass, hp, if_false]
      exact ih _ _ hr hl'

theorem update_whole_file_mem {p : String} {note : Option String}
    {items : List SelectionItem} {res : List SelectionItem × SelectionItem}
    (h : update_whole_file p note items = some res) :
    ∀ x ∈ res.1, ∃ y ∈ items, x.range = y.range := by
  induction items generalizing res with
  | nil => simp [update_whole_file] at h
  | cons it rest ih =>
    by_cases hc : it.path = p ∧ it.range = none
    · simp only [update_whole_file, if_pos hc] at h
      intro x hx
      cases h
      rcases List.mem_cons.mp hx with rfl | hx
      · exact ⟨it, List.mem_cons_self _ _, by cases note <;> simp⟩
      · exact ⟨x, List.mem_cons_of_mem _ hx, rfl⟩
    · simp only [update_whole_file, if_neg hc] at h
      cases hrec : update_whole_file p note rest with
      | none => rw [hrec] at h; simp at h
      | some res' =>
        rw [hrec] at h
        simp only [Option.map_some', Option.some.injEq] at h
        intro x hx
        cases h
        rcases List.mem_cons.mp hx with rfl | hx
        · exact ⟨x, List.mem_cons_self _ _, rfl⟩
        · obtain ⟨y, hy, hr⟩ := ih hrec x hx
          exact ⟨y, List.mem_cons_of_mem _ hy, hr⟩

theorem set_note_go_mem {p : String} {nr : Option (Nat × Nat)}
    {note : Option String} {items : List SelectionItem} :
    ∀ x ∈ (set_note_go p nr note items).1, ∃ y ∈ items, x.range = y.range := by
  induction items with
  | nil => simp [set_note_go]
  | cons it rest ih =>
    by_cases hc : it.path = p ∧ it.range = nr
    · simp only [set_note_go, if_pos hc]
      intro x hx
      rcases List.mem_cons.mp hx with rfl | hx
      · exact ⟨it, List.mem_cons_self _ _, rfl⟩
      · exact ⟨x, List.mem_cons_of_mem _ hx, rfl⟩
    · simp only [set_note_go, if_neg hc]
      intro x hx
      rcases List.mem_cons.mp hx with rfl | hx
      · exact ⟨x, List.mem_cons_self _ _, rfl⟩
      · obtain ⟨y, hy, hr⟩ := ih x hx
        exact ⟨y, List.mem_cons_of_mem _ hy, hr⟩

/-! ## C9: normalization invariant -/

/-- C9: `add_selection` normalizes a supplied range by swapping reversed
endpoints and flooring at 1, so normalized ranges satisfy
`1 ≤ start ≤ end`, and the stored-range invariant is preserved by
`add_selection`, `remove_selection`, `set_note`, and `clear`. -/
theorem C9_ranges_normalized_invariant :
    (∀ r : Nat × Nat,
      1 ≤ (normalize_range r).1 ∧ (normalize_range r).1 ≤ (normalize_range r).2) ∧
    ∀ items : List SelectionItem, ranges_normalized items →
      (∀ p range note, ranges_normalized (add_selection items p range note).1) ∧
      (∀ p range, ranges_normalized (remove_selection items p range).1) ∧
      (∀ p range note, ranges_normalized (set_note items p range note).1) ∧
      ranges_normalized (clear_store items) := by
  refine ⟨normalize_range_spec, fun items hinv => ⟨?_, ?_, ?_, ?_⟩⟩
  · intro p range note
    cases range with
    | none =>
      -- whole-file insertion: the new item has no range, kept items come
      -- from the original store
      intro x hx r hr
      have hx' : x ∈ insert_at (remove_all_for_path p items).1
          ((remove_all_for_path p items).2.1.getD
            (remove_all_for_path p items).1.length)
          _ := hx
      rcases mem_insert_at.mp hx' with rfl | hm
      · simp at hr
      · rw [remove_all_kept] at hm
        exact hinv x (List.Sublist.mem hm (List.filter_sublist items)) r hr
    | some rng =>
      show ranges_normalized (insert_range items
        { path := p, range := some (normalize_range rng),
          note := note.bind clean_note } (normalize_range rng)).1
      unfold insert_range
      cases hw : update_whole_file p (note.bind clean_note) items with
      | some res =>
        simp only [hw]
        intro x hx r hr
        obtain ⟨y, hy, hxy⟩ := update_whole_file_mem hw x hx
        exact hinv y hy r (hxy ▸ hr)
      | none =>
        simp only [hw]
        intro x hx r hr
        rcases mem_insert_at.mp hx with rfl | hm
        · simp only [Option.some.injEq] at hr
          subst hr
          exact merge_pass_norm p items (normalize_range rng)
            (note.bind clean_note) (normalize_range_spec rng) hinv
        · exact hinv x
            (List.Sublist.mem hm (merge_pass_sublist p items _ _)) r hr
  · intro p range
    intro x hx r hr
    cases range with
    | none =>
      exact hinv x
        (List.Sublist.mem hx (List.filter_sublist items)) r hr
    | some rng =>
      exact hinv x
        (List.Sublist.mem hx (List.filter_sublist items)) r hr
  · intro p range note x hx r hr
    obtain ⟨y, hy, hxy⟩ := set_note_go_mem x hx
    exact hinv y hy r (hxy ▸ hr)
  · intro x hx
    simp [clear_store] at hx

/-- C9 witness: the invariant theorem applied to the empty store and a
reversed input range. -/
theorem C9_ranges_normalized_invariant_witness :
    ranges_normalized ([] : List SelectionItem) ∧
      ranges_normalized (add_selection [] "a" (some (3, 2)) none).1 := by
  have h0 : ranges_normalized ([] : List SelectionItem) := by
    intro x hx; simp at hx
  exact ⟨h0, (C9_ranges_normalized_invariant.2 [] h0).1 "a" (some (3, 2)) none⟩

/-! ## C10: blank text short-circuits every tokenizer -/

/-- C10: for every model and every tokenizer resolution — exact BPE encoders
included — an item whose extracted text is empty or whitespace-only is
assigned exactly 0 tokens: `count_tokens` short-circuits before consulting
the tokenizer. -/
theorem C10_blank_text_zero_tokens (env : Env) (heuristics : HeuristicConfig)
    (model : TokenModel) (item : SelectionItem) (contents : List Char)
    (h : rust_trim contents = []) :
    count_tokens env heuristics model item contents = 0 := by
  unfold count_tokens
  rw [if_pos h]

/-- C10 witness: a BPE resolution that would report `≥ 42` tokens on any
input still yields 0 on whitespace-only text. -/
theorem C10_blank_text_zero_tokens_witness :
    rust_trim " \t ".toList = [] ∧
      count_tokens env_bpe HeuristicConfig.default TokenModel.openAiGpt4o
        item_ex " \t ".toList = 0 :=
  ⟨by decide, C10_blank_text_zero_tokens env_bpe HeuristicConfig.default
    TokenModel.openAiGpt4o item_ex " \t ".toList (by decide)⟩

/-! ## Helper lemmas: trimming and word counts -/

theorem rust_trim_eq_nil_iff (l : List Char) :
    rust_trim l = [] ↔ ∀ c ∈ l, c.isWhitespace := by
  unfold rust_trim
  rw [List.reverse_eq_nil_iff, List.dropWhile_eq_nil_iff]
  constructor
  · intro h c hc
    rw [← List.takeWhile_append_dropWhile (p := Char.isWhitespace) (l := l)]
      at hc
    rcases List.mem_append.mp hc with h1 | h2
    · exact List.mem_takeWhile_imp h1
    · exact h _ (List.mem_reverse.mpr h2)
  · intro h x hx
    exact h x (List.Sublist.mem (List.mem_reverse.mp hx)
      (List.dropWhile_sublist _))

theorem count_words_aux_pos {l : List Char}
    (h : ∃ c ∈ l, ¬c.isWhitespace) : 1 ≤ count_words_aux false l := by
  induction l with
  | nil => simp at h
  | cons c rest ih =>
    obtain ⟨w, hw, hnws⟩ := h
    by_cases hc : c.isWhitespace
    · have hwrest : w ∈ rest := by
        rcases List.mem_cons.mp hw with rfl | hm
        · exact absurd hc hnws
        · exact hm
      simpa [count_words_aux, hc] using ih ⟨w, hwrest, hnws⟩
    · simp [count_words_aux, hc]

theorem count_words_pos {l : List Char} (h : rust_trim l ≠ []) :
    1 ≤ count_words l := by
  apply count_words_aux_pos
  by_contra hno
  push_neg at hno
  exact h ((rust_trim_eq_nil_iff l).mpr hno)

theorem default_cpt_pos (model : TokenModel) :
    0 < HeuristicConfig.default.chars_per_token_for model := by
  cases model <;>
    norm_num [HeuristicConfig.chars_per_token_for, HeuristicConfig.default]

/-! ## C4: heuristic formula -/

/-- C4: with the default heuristic parameters, empty or whitespace-only text
yields exactly 0 tokens; any other text yields
`max(1, ceil(chars / chars_per_token(model)), ceil(words * tokens_per_word))`,
multiplied by the code-density multiplier and rounded up when the extension
indicates source code, and in particular at least 1 token; and
`chars_per_token` is smaller for the Anthropic models. -/
theorem C4_heuristic_estimate (text : List Char) (model : TokenModel)
    (is_code : Bool) :
    (rust_trim text = [] →
      HeuristicConfig.default.estimate text model is_code = 0) ∧
    (rust_trim text ≠ [] →
      (HeuristicConfig.default.estimate text model is_code =
        (let base := max 1 (max
          (⌈(text.length : ℚ) /
            HeuristicConfig.default.chars_per_token_for model⌉.toNat)
          (⌈(count_words text : ℚ) *
            HeuristicConfig.default.tokens_per_word⌉.toNat));
         if is_code then
           (⌈(base : ℚ) * HeuristicConfig.default.code_token_multiplier⌉).toNat
         else base)) ∧
      1 ≤ HeuristicConfig.default.estimate text model is_code) ∧
    (HeuristicConfig.default.chars_per_token_for TokenModel.anthropicClaude3Haiku
        < HeuristicConfig.default.chars_per_token_for TokenModel.openAiGpt4o ∧
      HeuristicConfig.default.chars_per_token_for TokenModel.anthropicClaude35Sonnet
        < HeuristicConfig.default.chars_per_token_for TokenModel.openAiGpt4oMini) := by
  refine ⟨fun h => by simp [HeuristicConfig.estimate, h], fun h => ?_, by
    norm_num [HeuristicConfig.chars_per_token_for, HeuristicConfig.default]⟩
  set cpt := HeuristicConfig.default.chars_per_token_for model with hcpt
  have hcpt_pos : 0 < cpt := default_cpt_pos model
  set a : ℤ := ⌈(text.length : ℚ) / cpt⌉ with ha
  set b : ℤ := ⌈(count_words text : ℚ) *
    HeuristicConfig.default.tokens_per_word⌉ with hb
  have htpw : HeuristicConfig.default.tokens_per_word = 1 := rfl
  have hbval : b = (count_words text : ℤ) := by
    rw [hb, htpw, mul_one]
    exact_mod_cast Int.ceil_natCast (count_words text)
  have hwpos : 1 ≤ count_words text := count_words_pos h
  have ha_nonneg : 0 ≤ a := by
    rw [ha]
    apply Int.ceil_nonneg
    positivity
  have hb_pos : 1 ≤ b := by rw [hbval]; exact_mod_cast hwpos
  have hmax_toNat : (max a b).toNat = max a.toNat b.toNat := by
    rcases le_total a b with hab | hab
    · rw [max_eq_right hab, max_eq_right (Int.toNat_le_toNat hab)]
    · rw [max_eq_left hab, max_eq_left (Int.toNat_le_toNat hab)]
  have hmax_pos : 1 ≤ (max a b).toNat := by
    have : (1 : ℤ) ≤ max a b := le_trans hb_pos (le_max_right a b)
    omega
  have hbase : max 1 (max a.toNat b.toNat) = (max a b).toNat := by
    rw [← hmax_toNat]
    omega
  have hcode_pos : ∀ x : Nat, 1 ≤ x →
      1 ≤ (⌈(x : ℚ) * HeuristicConfig.default.code_token_multiplier⌉).toNat := by
    intro x hx
    have hmul : HeuristicConfig.default.code_token_multiplier = 5 / 4 := rfl
    have h1 : (1 : ℚ) ≤ (x : ℚ) * (5 / 4) := by
      have hx' : (1 : ℚ) ≤ (x : ℚ) := by exact_mod_cast hx
      nlinarith
    have hle := Int.le_ceil ((x : ℚ) * (5 / 4))
    have hceil : (1 : ℤ) ≤ ⌈(x : ℚ) * (5 / 4)⌉ := by
      exact_mod_cast le_trans h1 hle
    rw [hmul]
    omega
  have hest : HeuristicConfig.default.estimate text model is_code =
      max (if is_code then
        (⌈(((max a b).toNat : ℚ)) *
          HeuristicConfig.default.code_token_multiplier⌉).toNat
      else (max a b).toNat) 1 := by
    unfold HeuristicConfig.estimate
    rw [if_neg h]
  constructor
  · rw [hest, hbase]
    cases is_code with
    | false => simp only [if_false, Bool.false_eq_true]; omega
    | true =>
      simp only [if_true]
      have := hcode_pos _ hmax_pos
      omega
  · rw [hest]
    omega

/-- C4 witness: a concrete non-blank source-code text. -/
theorem C4_heuristic_estimate_witness :
    rust_trim "ab cd".toList ≠ [] ∧
      1 ≤ HeuristicConfig.default.estimate "ab cd".toList
        TokenModel.anthropicClaude3Haiku true :=
  ⟨by decide,
    ((C4_heuristic_estimate "ab cd".toList TokenModel.anthropicClaude3Haiku
      true).2.1 (by decide)).2⟩

/-! ## Helper lemmas: cache behaviour -/

theorem cache_lookup_mem {cache : Cache} {k : CacheKey}
    {e : ItemTokenEstimate} (h : cache_lookup cache k = some e) :
    (k, e) ∈ cache := by
  induction cache with
  | nil => simp [cache_lookup] at h
  | cons kv rest ih =>
    obtain ⟨k', e'⟩ := kv
    unfold cache_lookup at h
    split at h
    · rename_i hk
      cases h
      subst hk
      exact List.mem_cons_self _ _
    · exact List.mem_cons_of_mem _ (ih h)

theorem estimate_item_eq (env : Env) (est : EstState) (model : TokenModel)
    (item : SelectionItem) (cache : Cache) :
    estimate_item env est model item cache =
      match cache_lookup cache
          ⟨model, item.path, item.range, env.fingerprint item.path⟩ with
      | some existing => (.ok existing, cache)
      | none =>
        match env.read item.path with
        | none =>
          (.error ("failed to read selection '" ++ item.path ++ "'"), cache)
        | some raw =>
          (.ok { item := item,
                 tokens := count_tokens env est.heuristics model item
                   (load_selection_contents raw item.range),
                 characters := (load_selection_contents raw item.range).length },
            (⟨model, item.path, item.range, env.fingerprint item.path⟩,
              { item := item,
                tokens := count_tokens env est.heuristics model item
                  (load_selection_contents raw item.range),
                characters :=
                  (load_selection_contents raw item.range).length })
              :: cache) := rfl

theorem estimate_item_miss {env : Env} {est : EstState} {model : TokenModel}
    {item : SelectionItem} {cache : Cache} {raw : List Char}
    (hmiss : cache_lookup cache
      ⟨model, item.path, item.range, env.fingerprint item.path⟩ = none)
    (hread : env.read item.path = some raw) :
    estimate_item env est model item cache =
      (.ok { item := item,
             tokens := count_tokens env est.heuristics model item
               (load_selection_contents raw item.range),
             characters := (load_selection_contents raw item.range).length },
        (⟨model, item.path, item.range, env.fingerprint item.path⟩,
          { item := item,
            tokens := count_tokens env est.heuristics model item
              (load_selection_contents raw item.range),
            characters := (load_selection_contents raw item.range).length })
          :: cache) := by
  rw [estimate_item_eq, hmiss, hread]

theorem estimate_item_hit {env : Env} {est : EstState} {model : TokenModel}
    {item : SelectionItem} {cache : Cache} {e : ItemTokenEstimate}
    (h : cache_lookup cache
      ⟨model, item.path, item.range, env.fingerprint item.path⟩ = some e) :
    estimate_item env est model item cache = (.ok e, cache) := by
  rw [estimate_item_eq, h]

theorem estimate_item_unreadable {env : Env} {est : EstState}
    {model : TokenModel} {item : SelectionItem} {cache : Cache}
    (hmiss : cache_lookup cache
      ⟨model, item.path, item.range, env.fingerprint item.path⟩ = none)
    (hread : env.read item.path = none) :
    estimate_item env est model item cache =
      (.error ("failed to read selection '" ++ item.path ++ "'"), cache) := by
  rw [estimate_item_eq, hmiss, hread]

theorem estimate_item_error_cache {env : Env} {est : EstState}
    {model : TokenModel} {item : SelectionItem} {cache : Cache} {msg : String}
    (h : (estimate_item env est model item cache).1 = .error msg) :
    (estimate_item env est model item cache).2 = cache := by
  cases hl : cache_lookup cache
      ⟨model, item.path, item.range, env.fingerprint item.path⟩ with
  | some e => rw [estimate_item_hit hl] at h; simp at h
  | none =>
    cases hr : env.read item.path with
    | none => rw [estimate_item_unreadable hl hr]
    | some raw => rw [estimate_item_miss hl hr] at h; simp at h

theorem estimate_item_preserves {env : Env} {est : EstState}
    {model : TokenModel} {item : SelectionItem} {cache : Cache}
    {k : CacheKey} {v : ItemTokenEstimate}
    (h : cache_lookup cache k = some v) :
    cache_lookup (estimate_item env est model item cache).2 k = some v := by
  rw [estimate_item_eq]
  cases hl : cache_lookup cache
      ⟨model, item.path, item.range, env.fingerprint item.path⟩ with
  | some e => exact h
  | none =>
    cases hr : env.read item.path with
    | none => exact h
    | some raw =>
      show cache_lookup (_ :: cache) k = some v
      by_cases hk : (⟨model, item.path, item.range,
          env.fingerprint item.path⟩ : CacheKey) = k
      · rw [← hk] at h
        rw [hl] at h
        exact absurd h (by simp)
      · simpa [cache_lookup, hk] using h

theorem estimate_item_self {env : Env} {est : EstState} {model : TokenModel}
    {item : SelectionItem} {cache : Cache} {e : ItemTokenEstimate}
    {cache' : Cache}
    (h : estimate_item env est model item cache = (.ok e, cache')) :
    cache_lookup cache'
      ⟨model, item.path, item.range, env.fingerprint item.path⟩ = some e := by
  rw [estimate_item_eq] at h
  cases hl : cache_lookup cache
      ⟨model, item.path, item.range, env.fingerprint item.path⟩ with
  | some e' =>
    rw [hl] at h
    simp only [Prod.mk.injEq, Except.ok.injEq] at h
    rw [← h.2, hl, h.1]
  | none =>
    rw [hl] at h
    cases hr : env.read item.path with
    | none => rw [hr] at h; simp at h
    | some raw =>
      rw [hr] at h
      simp only [Prod.mk.injEq, Except.ok.injEq] at h
      rw [← h.2]
      simp [cache_lookup, ← h.1]

theorem go_preserves {env : Env} {est : EstState} {model : TokenModel}
    (items : List SelectionItem) (cache : Cache) {k : CacheKey}
    {v : ItemTokenEstimate} (h : cache_lookup cache k = some v) :
    cache_lookup (estimate_bundle_go env est model items cache).2 k
      = some v := by
  induction items generalizing cache with
  | nil => exact h
  | cons it rest ih =>
    unfold estimate_bundle_go
    split
    · rename_i e cache' heq
      have hpre : cache_lookup (estimate_item env est model it cache).2 k
          = some v := estimate_item_preserves h
      rwa [heq] at hpre
    · rename_i est_i cache' heq
      have hpres : cache_lookup cache' k = some v := by
        have hpre : cache_lookup (estimate_item env est model it cache).2 k
            = some v := estimate_item_preserves h
        rwa [heq] at hpre
      split
      · rename_i e2 cache'' heq2
        have := ih cache' hpres
        rwa [heq2] at this
      · rename_i l2 cache'' heq2
        have := ih cache' hpres
        rwa [heq2] at this

/-! ## C6: range slicing and character counts -/

/-- C6: an item with a present range uses the 1-based inclusive slice of the
file's lines from `start` to `end`, with `end` clamped to the line count and
an out-of-file `start` producing the empty slice; an item without a range
uses the whole text; and the reported character count of a freshly computed
item is the number of Unicode scalar values of the extracted text. -/
theorem C6_range_slicing (content : List Char) (s e : Nat) (h1 : 1 ≤ s)
    (h2 : s ≤ e) :
    (load_selection_contents content none = content) ∧
    ((rust_lines content).length < s →
      load_selection_contents content (some (s, e)) = []) ∧
    (s ≤ (rust_lines content).length →
      load_selection_contents content (some (s, e)) =
        join_nl (((rust_lines content).drop (s - 1)).take
          (min e (rust_lines content).length - (s - 1)))) ∧
    (∀ (env : Env) (est : EstState) (model : TokenModel)
        (item : SelectionItem) (cache : Cache) (raw : List Char),
      cache_lookup cache
          ⟨model, item.path, item.range, env.fingerprint item.path⟩ = none →
      env.read item.path = some raw →
      ∃ tokens, estimate_item env est model item cache =
        (.ok { item := item, tokens := tokens,
               characters := (load_selection_contents raw item.range).length },
          (⟨model, item.path, item.range, env.fingerprint item.path⟩,
            { item := item, tokens := tokens,
              characters :=
                (load_selection_contents raw item.range).length }) :: cache)) := by
  have hmax : max e (s - 1) = e := Nat.max_eq_left (by omega)
  have hshape : load_selection_contents content (some (s, e)) =
      if (rust_lines content).length ≤ s - 1 then []
      else join_nl (((rust_lines content).drop (s - 1)).take
        (min (max e (s - 1)) (rust_lines content).length - (s - 1))) := rfl
  refine ⟨rfl, ?_, ?_, ?_⟩
  · intro hlt
    rw [hshape, if_pos (by omega)]
  · intro hle
    rw [hshape, if_neg (by omega), hmax]
  · intro env est model item cache raw hmiss hread
    exact ⟨_, estimate_item_miss hmiss hread⟩

/-- C6 witness: a concrete three-line file sliced as `(2, 3)`. -/
theorem C6_range_slicing_witness :
    (1 ≤ 2 ∧ 2 ≤ 3) ∧
      load_selection_contents "a\nbb\nccc\n".toList (some (2, 3))
        = join_nl (((rust_lines "a\nbb\nccc\n".toList).drop 1).take
            (min 3 (rust_lines "a\nbb\nccc\n".toList).length - 1)) :=
  ⟨⟨by decide, by decide⟩, by
    have h := (C6_range_slicing "a\nbb\nccc\n".toList 2 3 (by decide)
      (by decide)).2.2.1 (by decide)
    simpa using h⟩

/-! ## C5: cache keying and invalidation -/

/-- C5: `invalidate_path(p)` drops exactly the cache entries whose path is
`p` (entries for other paths are untouched), and whenever no cache entry
matches the full current key — model, path, range, and current fingerprint —
`estimate_item` recomputes from the file's current content and caches the
fresh estimate. -/
theorem C5_cache_invalidation :
    (∀ (cache : Cache) (p : String) (k : CacheKey) (e : ItemTokenEstimate),
      (k, e) ∈ invalidate_path cache p ↔ ((k, e) ∈ cache ∧ ¬(k.path = p))) ∧
    (∀ (env : Env) (est : EstState) (model : TokenModel)
        (item : SelectionItem) (cache : Cache) (raw : List Char),
      cache_lookup cache
          ⟨model, item.path, item.range, env.fingerprint item.path⟩ = none →
      env.read item.path = some raw →
      estimate_item env est model item cache =
        (.ok { item := item,
               tokens := count_tokens env est.heuristics model item
                 (load_selection_contents raw item.range),
               characters := (load_selection_contents raw item.range).length },
          (⟨model, item.path, item.range, env.fingerprint item.path⟩,
            { item := item,
              tokens := count_tokens env est.heuristics model item
                (load_selection_contents raw item.range),
              characters := (load_selection_contents raw item.range).length })
            :: cache)) := by
  constructor
  · intro cache p k e
    unfold invalidate_path
    rw [List.mem_filter]
    simp
  · intro env est model item cache raw hmiss hread
    exact estimate_item_miss hmiss hread

/-- C5 witness: a fingerprint-fresh key misses an empty cache and the
estimate is recomputed from the current file content. -/
theorem C5_cache_invalidation_witness :
    cache_lookup [] ⟨TokenModel.openAiGpt4oMini, item_ex.path, item_ex.range,
        env_one_file.fingerprint item_ex.path⟩ = none ∧
      env_one_file.read item_ex.path = some "ab cd\nef\n".toList ∧
      (load_selection_contents "ab cd\nef\n".toList item_ex.range).length = 9 ∧
      estimate_item env_one_file est_ex TokenModel.openAiGpt4oMini item_ex []
        = (.ok { item := item_ex,
                 tokens := count_tokens env_one_file est_ex.heuristics
                   TokenModel.openAiGpt4oMini item_ex
                   (load_selection_contents "ab cd\nef\n".toList item_ex.range),
                 characters :=
                   (load_selection_contents "ab cd\nef\n".toList
                     item_ex.range).length },
            [(⟨TokenModel.openAiGpt4oMini, item_ex.path, item_ex.range,
                env_one_file.fingerprint item_ex.path⟩,
              { item := item_ex,
                tokens := count_tokens env_one_file est_ex.heuristics
                  TokenModel.openAiGpt4oMini item_ex
                  (load_selection_contents "ab cd\nef\n".toList item_ex.range),
                characters :=
                  (load_selection_contents "ab cd\nef\n".toList
                    item_ex.range).length })]) :=
  ⟨rfl, rfl, rfl, C5_cache_invalidation.2 env_one_file est_ex
    TokenModel.openAiGpt4oMini item_ex [] "ab cd\nef\n".toList rfl rfl⟩

/-! ## C3: estimation aborts on unreadable files -/

theorem go_cons_error {env : Env} {est : EstState} {model : TokenModel}
    {it : SelectionItem} {rest : List SelectionItem} {cache : Cache}
    {e : ItemTokenEstimate} {c1 : Cache} {msg : String}
    (h1 : estimate_item env est model it cache = (.ok e, c1))
    (h2 : (estimate_bundle_go env est model rest c1).1 = .error msg) :
    (estimate_bundle_go env est model (it :: rest) cache).1 = .error msg := by
  unfold estimate_bundle_go
  split
  · rename_i e' c' heq
    rw [h1] at heq
    simp at heq
  · rename_i est_i c' heq
    rw [h1] at heq
    simp only [Prod.mk.injEq, Except.ok.injEq] at heq
    obtain ⟨he, hc⟩ := heq
    subst hc
    split
    · rename_i e2 c2 heq2
      rw [heq2] at h2
      simpa using h2
    · rename_i l2 c2 heq2
      rw [heq2] at h2
      simp at h2

theorem estimate_bundle_of_go {env : Env} {est : EstState}
    {bundle : ContextBundle} {cache : Cache}
    {res : Except String (List ItemTokenEstimate)} {c : Cache}
    (hgo : estimate_bundle_go env est
      ((bundle.model.bind TokenModel.fromStr).getD est.model)
      bundle.items cache = (res, c)) :
    estimate_bundle env est bundle cache
      = (match res with
         | .error msg => (.error msg, c)
         | .ok list =>
           (.ok { model := (bundle.model.bind TokenModel.fromStr).getD est.model
                  token_budget := est.token_budget
                  total_tokens := (list.map (·.tokens)).sum
                  total_characters := (list.map (·.characters)).sum
                  items := list }, c)) := by
  have hdef : estimate_bundle env est bundle cache
      = (match estimate_bundle_go env est
          ((bundle.model.bind TokenModel.fromStr).getD est.model)
          bundle.items cache with
        | (.error e, c') => (.error e, c')
        | (.ok list, c') =>
          (.ok { model := (bundle.model.bind TokenModel.fromStr).getD est.model
                 token_budget := est.token_budget
                 total_tokens := (list.map (·.tokens)).sum
                 total_characters := (list.map (·.characters)).sum
                 items := list }, c')) := rfl
  rw [hdef]
  simp only [hgo]
  cases res <;> rfl

theorem go_error_on_unreadable {env : Env} {est : EstState}
    {model : TokenModel} (items : List SelectionItem) (cache : Cache)
    (hcache : ∀ kv ∈ cache, ¬env.read kv.1.path = none)
    (hbad : ∃ it ∈ items, env.read it.path = none) :
    ∃ msg, (estimate_bundle_go env est model items cache).1 = .error msg := by
  induction items generalizing cache with
  | nil => simp at hbad
  | cons it rest ih =>
    obtain ⟨w, hw, hwread⟩ := hbad
    cases hread : env.read it.path with
    | none =>
      have hmiss : cache_lookup cache
          ⟨model, it.path, it.range, env.fingerprint it.path⟩ = none := by
        cases hl : cache_lookup cache
            ⟨model, it.path, it.range, env.fingerprint it.path⟩ with
        | none => rfl
        | some e =>
          exact absurd hread (hcache _ (cache_lookup_mem hl))
      have hitem : estimate_item env est model it cache =
          (.error ("failed to read selection '" ++ it.path ++ "'"), cache) := by
        rw [estimate_item_eq, hmiss, hread]
      refine ⟨"failed to read selection '" ++ it.path ++ "'", ?_⟩
      unfold estimate_bundle_go
      rw [hitem]
    | some raw =>
      have hwrest : w ∈ rest := by
        rcases List.mem_cons.mp hw with rfl | hm
        · rw [hread] at hwread; exact absurd hwread (by simp)
        · exact hm
      have hitem : ∃ e c1, estimate_item env est model it cache = (.ok e, c1)
          ∧ (∀ kv ∈ c1, ¬env.read kv.1.path = none) := by
        cases hl : cache_lookup cache
            ⟨model, it.path, it.range, env.fingerprint it.path⟩ with
        | some e0 => exact ⟨e0, cache, estimate_item_hit hl, hcache⟩
        | none =>
          refine ⟨_, _, estimate_item_miss hl hread, ?_⟩
          intro kv hkv
          rcases List.mem_cons.mp hkv with rfl | hm
          · show ¬env.read it.path = none
            rw [hread]; simp
          · exact hcache _ hm
      obtain ⟨e, c1, hitem, hc1⟩ := hitem
      obtain ⟨msg, hmsg⟩ := ih c1 hc1 ⟨w, hwrest, hwread⟩
      exact ⟨msg, go_cons_error hitem hmsg⟩

/-- C3: `estimate_bundle` returns an error whenever a selected file cannot
be read (given that no stale cache entry shadows an unreadable path), and
the whole call aborts: the result is the error alone, never a partial
summary. -/
theorem C3_abort_on_unreadable (env : Env) (est : EstState)
    (bundle : ContextBundle) (cache : Cache)
    (hcache : ∀ kv ∈ cache, ¬env.read kv.1.path = none)
    (hbad : ∃ it ∈ bundle.items, env.read it.path = none) :
    ∃ msg, (estimate_bundle env est bundle cache).1 = .error msg := by
  have hgoe : ∃ msg, (estimate_bundle_go env est
      ((bundle.model.bind TokenModel.fromStr).getD est.model)
      bundle.items cache).1 = .error msg :=
    go_error_on_unreadable bundle.items cache hcache hbad
  obtain ⟨msg, hmsg⟩ := hgoe
  cases hgo : estimate_bundle_go env est
      ((bundle.model.bind TokenModel.fromStr).getD est.model)
      bundle.items cache with
  | mk res c =>
    rw [hgo] at hmsg
    cases res with
    | error m =>
      refine ⟨m, ?_⟩
      rw [estimate_bundle_of_go hgo]
    | ok l => exact absurd hmsg (by simp)

/-- C3 witness: a bundle over an unreadable filesystem and an empty cache. -/
theorem C3_abort_on_unreadable_witness :
    env_unreadable.read item_ex.path = none ∧
      ∃ msg, (estimate_bundle env_unreadable est_ex
        { items := [item_ex], model := none } []).1 = .error msg :=
  ⟨rfl, C3_abort_on_unreadable env_unreadable est_ex
    { items := [item_ex], model := none } []
    (fun kv h => absurd h (List.not_mem_nil kv))
    ⟨item_ex, by simp, rfl⟩⟩

/-! ## C7: idempotence of estimate_bundle -/

theorem go_cons_ok {env : Env} {est : EstState} {model : TokenModel}
    {it : SelectionItem} {rest : List SelectionItem} {cache : Cache}
    {e : ItemTokenEstimate} {c1 : Cache}
    {res2 : Except String (List ItemTokenEstimate)} {c2 : Cache}
    (h1 : estimate_item env est model it cache = (.ok e, c1))
    (h2 : estimate_bundle_go env est model rest c1 = (res2, c2)) :
    estimate_bundle_go env est model (it :: rest) cache
      = (match res2 with
         | .error m => (.error m, c2)
         | .ok l => (.ok (e :: l), c2)) := by
  unfold estimate_bundle_go
  split
  · rename_i e' c' heq
    rw [h1] at heq
    simp at heq
  · rename_i est_i c' heq
    rw [h1] at heq
    simp only [Prod.mk.injEq, Except.ok.injEq] at heq
    obtain ⟨he, hc⟩ := heq
    subst hc
    subst he
    split
    · rename_i e2 c2' heq2
      have hcomb := h2.symm.trans heq2
      simp only [Prod.mk.injEq] at hcomb
      obtain ⟨hr, hc2⟩ := hcomb
      subst hr
      subst hc2
      rfl
    · rename_i l2 c2' heq2
      have hcomb := h2.symm.trans heq2
      simp only [Prod.mk.injEq] at hcomb
      obtain ⟨hr, hc2⟩ := hcomb
      subst hr
      subst hc2
      rfl

theorem go_cons_error_shape {env : Env} {est : EstState} {model : TokenModel}
    {it : SelectionItem} {rest : List SelectionItem} {cache : Cache}
    {msg : String}
    (h1 : estimate_item env est model it cache = (.error msg, cache)) :
    estimate_bundle_go env est model (it :: rest) cache
      = (.error msg, cache) := by
  unfold estimate_bundle_go
  split
  · rename_i e' c' heq
    have hcomb := h1.symm.trans heq
    simp only [Prod.mk.injEq, Except.error.injEq] at hcomb
    obtain ⟨hm, hc⟩ := hcomb
    subst hm
    subst hc
    rfl
  · rename_i est_i c' heq
    have hcomb := h1.symm.trans heq
    simp at hcomb

theorem go_repeat (env : Env) (est : EstState) (model : TokenModel)
    (items : List SelectionItem) (cache : Cache) :
    estimate_bundle_go env est model items
        (estimate_bundle_go env est model items cache).2
      = estimate_bundle_go env est model items cache := by
  induction items generalizing cache with
  | nil => rfl
  | cons it rest ih =>
    cases h1 : estimate_item env est model it cache with
    | mk res c1 =>
      cases res with
      | error msg =>
        have hc1 : c1 = cache := by
          have h' : (estimate_item env est model it cache).1 = .error msg := by
            rw [h1]
          have h'' := estimate_item_error_cache h'
          rw [h1] at h''
          exact h''
        have h1' : estimate_item env est model it cache
            = (.error msg, cache) := by rw [h1, hc1]
        have hcons : estimate_bundle_go env est model (it :: rest) cache
            = (.error msg, cache) := go_cons_error_shape h1'
        rw [hcons]
        exact hcons
      | ok e =>
        have hself := estimate_item_self h1
        cases h2 : estimate_bundle_go env est model rest c1 with
        | mk res2 c2 =>
          have hcons := go_cons_ok h1 h2
          have hsnd : (estimate_bundle_go env est model (it :: rest) cache).2
              = c2 := by
            rw [hcons]; cases res2 <;> rfl
          have hc2self : cache_lookup c2
              ⟨model, it.path, it.range, env.fingerprint it.path⟩ = some e := by
            have hp : cache_lookup
                (estimate_bundle_go env est model rest c1).2
                ⟨model, it.path, it.range, env.fingerprint it.path⟩ = some e :=
              go_preserves rest c1 hself
            rw [h2] at hp
            exact hp
          have hitem2 : estimate_item env est model it c2 = (.ok e, c2) :=
            estimate_item_hit hc2self
          have hrest2 : estimate_bundle_go env est model rest c2
              = (res2, c2) := by
            have hih := ih c1
            rw [h2] at hih
            exact hih
          have hcons2 := go_cons_ok hitem2 hrest2
          rw [hsnd, hcons2, hcons]
          cases res2 <;> rfl

/-- C7: with the filesystem and estimator configuration unchanged, running
`estimate_bundle` twice in succession on the same bundle returns the same
result — same totals, same per-item token and character counts in the same
order — and leaves the cache exactly as the first call left it. -/
theorem C7_estimate_bundle_idempotent (env : Env) (est : EstState)
    (bundle : ContextBundle) (cache : Cache) :
    estimate_bundle env est bundle (estimate_bundle env est bundle cache).2
      = estimate_bundle env est bundle cache := by
  cases hgo : estimate_bundle_go env est
      ((bundle.model.bind TokenModel.fromStr).getD est.model)
      bundle.items cache with
  | mk res c =>
    have hrep := go_repeat env est
      ((bundle.model.bind TokenModel.fromStr).getD est.model)
      bundle.items cache
    rw [hgo] at hrep
    have hrep' : estimate_bundle_go env est
        ((bundle.model.bind TokenModel.fromStr).getD est.model)
        bundle.items c = (res, c) := hrep
    have hsnd : (estimate_bundle env est bundle cache).2 = c := by
      rw [estimate_bundle_of_go hgo]; cases res <;> rfl
    rw [hsnd, estimate_bundle_of_go hgo, estimate_bundle_of_go hrep']
    cases res <;> rfl

/-! ## Helper lemmas: merge closure -/

theorem covered_by_cons {it : SelectionItem} {rest : List SelectionItem}
    {m : Nat} :
    covered_by (it :: rest) m ↔
      (∃ r : Nat × Nat, it.range = some r ∧ r.1 ≤ m ∧ m ≤ r.2)
        ∨ covered_by rest m := by
  unfold covered_by
  constructor
  · rintro ⟨x, hx, r, hr, h1, h2⟩
    rcases List.mem_cons.mp hx with rfl | hx
    · exact Or.inl ⟨r, hr, h1, h2⟩
    · exact Or.inr ⟨x, hx, r, hr, h1, h2⟩
  · rintro (⟨r, hr, h1, h2⟩ | ⟨x, hx, r, hr, h1, h2⟩)
    · exact ⟨it, List.mem_cons_self _ _, r, hr, h1, h2⟩
    · exact ⟨x, List.mem_cons_of_mem _ hx, r, hr, h1, h2⟩

theorem covered_by_insert_at {l : List SelectionItem} {n : Nat}
    {x : SelectionItem} {m : Nat} :
    covered_by (insert_at l n x) m ↔
      (∃ r : Nat × Nat, x.range = some r ∧ r.1 ≤ m ∧ m ≤ r.2)
        ∨ covered_by l m := by
  unfold covered_by
  constructor
  · rintro ⟨y, hy, r, hr, h1, h2⟩
    rcases mem_insert_at.mp hy with rfl | hy
    · exact Or.inl ⟨r, hr, h1, h2⟩
    · exact Or.inr ⟨y, hy, r, hr, h1, h2⟩
  · rintro (⟨r, hr, h1, h2⟩ | ⟨y, hy, r, hr, h1, h2⟩)
    · exact ⟨x, mem_insert_at.mpr (Or.inl rfl), r, hr, h1, h2⟩
    · exact ⟨y, mem_insert_at.mpr (Or.inr hy), r, hr, h1, h2⟩

theorem pairwise_insert_at {R : SelectionItem → SelectionItem → Prop}
    {l : List SelectionItem} {n : Nat} {x : SelectionItem}
    (hl : List.Pairwise R l)
    (h1 : ∀ y ∈ l.take n, R y x) (h2 : ∀ y ∈ l.drop n, R x y) :
    List.Pairwise R (insert_at l n x) := by
  unfold insert_at
  rw [List.pairwise_append]
  have hsplit := hl
  rw [← List.take_append_drop n l, List.pairwise_append] at hsplit
  refine ⟨hsplit.1, ?_, ?_⟩
  · exact List.pairwise_cons.mpr ⟨h2, hsplit.2.1⟩
  · intro a ha b hb
    rcases List.mem_cons.mp hb with rfl | hb
    · exact h1 a ha
    · exact hsplit.2.2 a ha b hb

theorem merge_pass_lb {p : String} {l : List SelectionItem} {r : Nat × Nat}
    {n : Option String} {k : Nat} (hr : k ≤ r.1)
    (hl : ∀ it ∈ l, ∀ er : Nat × Nat, it.range = some er → k ≤ er.1) :
    k ≤ (merge_pass p l r n).1.1 := by
  induction l generalizing r n with
  | nil => simpa [merge_pass] using hr
  | cons it rest ih =>
    have hl' : ∀ x ∈ rest, ∀ er : Nat × Nat, x.range = some er → k ≤ er.1 :=
      fun x hx => hl x (List.mem_cons_of_mem _ hx)
    by_cases hp : it.path = p
    · cases hrg : it.range with
      | some er =>
        by_cases hm : ranges_mergeable r er = true
        · simp only [merge_pass, hp, if_true, hrg, hm]
          exact ih (by
            have := hl it (List.mem_cons_self _ _) er hrg
            simp only [le_min_iff]
            omega) hl'
        · simp only [merge_pass, hp, if_true, hrg, hm, Bool.false_eq_true,
            if_false]
          exact ih hr hl'
      | none =>
        simp only [merge_pass, hp, if_true, hrg]
        exact ih hr hl'
    · simp only [merge_pass, hp, if_false]
      exact ih hr hl'

theorem merge_pass_all_right {p : String} {l : List SelectionItem}
    {r : Nat × Nat} {n : Option String}
    (hl : ∀ it ∈ l, ∀ er : Nat × Nat, it.range = some er → r.2 + 1 < er.1) :
    merge_pass p l r n = (r, n, l) := by
  induction l with
  | nil => rfl
  | cons it rest ih =>
    have hl' : ∀ x ∈ rest, ∀ er : Nat × Nat, x.range = some er →
        r.2 + 1 < er.1 := fun x hx => hl x (List.mem_cons_of_mem _ hx)
    by_cases hp : it.path = p
    · cases hrg : it.range with
      | some er =>
        have hfar := hl it (List.mem_cons_self _ _) er hrg
        have hm : ranges_mergeable r er = false := by
          unfold ranges_mergeable
          simp only [Bool.and_eq_false_iff, decide_eq_false_iff_not]
          omega
        simp only [merge_pass, hp, if_true, hrg, hm, Bool.false_eq_true,
          if_false, ih hl']
      | none =>
        simp only [merge_pass, hp, if_true, hrg, ih hl']
    · simp only [merge_pass, hp, if_false, ih hl']

theorem last_same_path_idx_all {p : String} {l : List SelectionItem}
    (h : ∀ it ∈ l, it.path = p) :
    last_same_path_idx p l
      = if l.length = 0 then none else some (l.length - 1) := by
  induction l with
  | nil => rfl
  | cons it rest ih =>
    have hp := h it (List.mem_cons_self _ _)
    have ih' := ih (fun x hx => h x (List.mem_cons_of_mem _ hx))
    cases rest with
    | nil => simp [last_same_path_idx, hp]
    | cons it2 rest2 =>
      have hstep : last_same_path_idx p (it :: it2 :: rest2)
          = match last_same_path_idx p (it2 :: rest2) with
            | some i => some (i + 1)
            | none => if it.path = p then some 0 else none := rfl
      rw [hstep, ih']
      simp

theorem first_idx_where_none {pred : SelectionItem → Bool}
    {l : List SelectionItem} (h : first_idx_where pred l = none) :
    ∀ x ∈ l, pred x = false := by
  induction l with
  | nil => simp
  | cons it rest ih =>
    by_cases hp : pred it = true
    · simp [first_idx_where, hp] at h
    · intro x hx
      rcases List.mem_cons.mp hx with rfl | hx
      · simpa using hp
      · simp only [first_idx_where, hp, Bool.false_eq_true, if_false,
          Option.map_eq_none'] at h
        exact ih h x hx

theorem update_whole_file_all_ranged {p : String} {note : Option String}
    {items : List SelectionItem}
    (h : ∀ it ∈ items, ∃ er : Nat × Nat, it.range = some er) :
    update_whole_file p note items = none := by
  induction items with
  | nil => rfl
  | cons it rest ih =>
    obtain ⟨er, her⟩ := h it (List.mem_cons_self _ _)
    have hcond : ¬(it.path = p ∧ it.range = none) := by
      rintro ⟨-, hnone⟩
      rw [her] at hnone
      simp at hnone
    simp only [update_whole_file, if_neg hcond,
      ih (fun x hx => h x (List.mem_cons_of_mem _ hx)), Option.map_none']

set_option maxHeartbeats 1600000 in
theorem merge_pass_spec (p : String) :
    ∀ (l : List SelectionItem) (r : Nat × Nat) (n : Option String),
    (∀ it ∈ l, it.path = p) → ranges_normalized l →
    (∀ it ∈ l, ∃ er : Nat × Nat, it.range = some er) → sorted_gap l →
    1 ≤ r.1 → r.1 ≤ r.2 →
    (merge_pass p l r n).2.2.Sublist l ∧
    (∀ it ∈ (merge_pass p l r n).2.2, ∀ er : Nat × Nat, it.range = some er →
      er.2 + 1 < (merge_pass p l r n).1.1 ∨
        (merge_pass p l r n).1.2 + 1 < er.1) ∧
    (∀ m : Nat,
      ((merge_pass p l r n).1.1 ≤ m ∧ m ≤ (merge_pass p l r n).1.2)
          ∨ covered_by (merge_pass p l r n).2.2 m
        ↔ (r.1 ≤ m ∧ m ≤ r.2) ∨ covered_by l m) := by
  intro l
  induction l with
  | nil =>
    intro r n _ _ _ _ h1 h2
    refine ⟨List.Sublist.refl _, by simp [merge_pass], ?_⟩
    intro m
    simp [merge_pass, covered_by]
  | cons it rest ih =>
    intro r n hpath hnorm hranged hsorted hr1 hr2
    have hp : it.path = p := hpath it (List.mem_cons_self _ _)
    obtain ⟨er, her⟩ := hranged it (List.mem_cons_self _ _)
    have hern := hnorm it (List.mem_cons_self _ _) er her
    have hpath' : ∀ x ∈ rest, x.path = p :=
      fun x hx => hpath x (List.mem_cons_of_mem _ hx)
    have hnorm' : ranges_normalized rest :=
      fun x hx => hnorm x (List.mem_cons_of_mem _ hx)
    have hranged' : ∀ x ∈ rest, ∃ er : Nat × Nat, x.range = some er :=
      fun x hx => hranged x (List.mem_cons_of_mem _ hx)
    have hsorted' : sorted_gap rest := (List.pairwise_cons.mp hsorted).2
    have hhead := (List.pairwise_cons.mp hsorted).1
    by_cases hm : ranges_mergeable r er = true
    · -- the head entry is absorbed into the growing range
      have hmm : r.1 ≤ er.2 + 1 ∧ er.1 ≤ r.2 + 1 := by
        unfold ranges_mergeable at hm
        simp only [Bool.and_eq_true, decide_eq_true_eq] at hm
        exact hm
      have heq : merge_pass p (it :: rest) r n
          = merge_pass p rest (min r.1 er.1, max r.2 er.2)
              (if n.isSome then n else it.note) := by
        simp [merge_pass, hp, her, hm]
      obtain ⟨ihsub, ihside, ihcov⟩ :=
        ih (min r.1 er.1, max r.2 er.2) (if n.isSome then n else it.note)
          hpath' hnorm' hranged' hsorted'
          (by simp only [le_min_iff]; omega)
          (by
            have h1 : min r.1 er.1 ≤ r.1 := min_le_left _ _
            have h2 : r.2 ≤ max r.2 er.2 := le_max_left _ _
            omega)
      rw [heq]
      refine ⟨ihsub.cons _, ihside, ?_⟩
      intro m
      have hunion : (min r.1 er.1 ≤ m ∧ m ≤ max r.2 er.2)
          ↔ ((r.1 ≤ m ∧ m ≤ r.2) ∨ (er.1 ≤ m ∧ m ≤ er.2)) := by
        omega
      have hcons : covered_by (it :: rest) m
          ↔ (er.1 ≤ m ∧ m ≤ er.2) ∨ covered_by rest m := by
        rw [covered_by_cons]; simp [her]
      rw [hcons, ihcov m, hunion]
      tauto
    · -- the head entry is kept
      have hnm : er.2 + 1 < r.1 ∨ r.2 + 1 < er.1 := by
        unfold ranges_mergeable at hm
        simp only [Bool.and_eq_true, decide_eq_true_eq, not_and, not_le] at hm
        omega
      have heq : merge_pass p (it :: rest) r n
          = ((merge_pass p rest r n).1, (merge_pass p rest r n).2.1,
             it :: (merge_pass p rest r n).2.2) := by
        simp [merge_pass, hp, her, hm]
      rcases hnm with hleft | hright
      · -- the head is strictly left of the range and of everything after it
        obtain ⟨ihsub, ihside, ihcov⟩ :=
          ih r n hpath' hnorm' hranged' hsorted' hr1 hr2
        rw [heq]
        dsimp only
        refine ⟨ihsub.cons₂ _, ?_, ?_⟩
        · intro x hx erx herx
          rcases List.mem_cons.mp hx with rfl | hx
          · rw [her] at herx
            injection herx with h'
            subst h'
            left
            have hlb : er.2 + 2 ≤ (merge_pass p rest r n).1.1 :=
              merge_pass_lb (by omega) (fun y hy ery hery => by
                have := hhead y hy er ery her hery
                omega)
            omega
          · exact ihside x hx erx herx
        · intro m
          have hcons : covered_by (it :: rest) m
              ↔ (er.1 ≤ m ∧ m ≤ er.2) ∨ covered_by rest m := by
            rw [covered_by_cons]; simp [her]
          have hkcons : covered_by (it :: (merge_pass p rest r n).2.2) m
              ↔ (er.1 ≤ m ∧ m ≤ er.2)
                  ∨ covered_by (merge_pass p rest r n).2.2 m := by
            rw [covered_by_cons]; simp [her]
          rw [hkcons, hcons]
          have := ihcov m
          tauto
      · -- the head is strictly right of the range: nothing merges at all
        have hall : ∀ x ∈ rest, ∀ erx : Nat × Nat, x.range = some erx →
            r.2 + 1 < erx.1 := by
          intro x hx erx herx
          have := hhead x hx er erx her herx
          omega
        have hid : merge_pass p rest r n = (r, n, rest) :=
          merge_pass_all_right hall
        rw [heq, hid]
        refine ⟨List.Sublist.refl _, ?_, ?_⟩
        · intro x hx erx herx
          rcases List.mem_cons.mp hx with rfl | hx
          · rw [her] at herx
            injection herx with h'
            subst h'
            right
            exact hright
          · right
            exact hall x hx erx herx
        · intro m
          exact Iff.rfl

theorem insert_pos_spec (p : String) (q : Nat × Nat) :
    ∀ kept : List SelectionItem,
    (∀ it ∈ kept, it.path = p) →
    (∀ it ∈ kept, ∃ er : Nat × Nat, it.range = some er) →
    ranges_normalized kept →
    sorted_gap kept →
    (∀ it ∈ kept, ∀ er : Nat × Nat, it.range = some er →
      er.2 + 1 < q.1 ∨ q.2 + 1 < er.1) →
    1 ≤ q.1 → q.1 ≤ q.2 →
    (∀ x ∈ kept.take (find_insert_pos kept p q),
      ∀ er : Nat × Nat, x.range = some er → er.2 + 1 < q.1) ∧
    (∀ x ∈ kept.drop (find_insert_pos kept p q),
      ∀ er : Nat × Nat, x.range = some er → q.2 + 1 < er.1) := by
  intro kept
  induction kept with
  | nil => intro _ _ _ _ _ _ _; simp
  | cons it rest ih =>
    intro hpath hranged hnorm hsorted hsides hq1 hq2
    have hp : it.path = p := hpath it (List.mem_cons_self _ _)
    obtain ⟨er, her⟩ := hranged it (List.mem_cons_self _ _)
    have hern := hnorm it (List.mem_cons_self _ _) er her
    have hside := hsides it (List.mem_cons_self _ _) er her
    have hpath' : ∀ x ∈ rest, x.path = p :=
      fun x hx => hpath x (List.mem_cons_of_mem _ hx)
    have hranged' : ∀ x ∈ rest, ∃ er : Nat × Nat, x.range = some er :=
      fun x hx => hranged x (List.mem_cons_of_mem _ hx)
    have hnorm' : ranges_normalized rest :=
      fun x hx => hnorm x (List.mem_cons_of_mem _ hx)
    have hsorted' : sorted_gap rest := (List.pairwise_cons.mp hsorted).2
    have hhead := (List.pairwise_cons.mp hsorted).1
    have hsides' : ∀ x ∈ rest, ∀ er : Nat × Nat, x.range = some er →
        er.2 + 1 < q.1 ∨ q.2 + 1 < er.1 :=
      fun x hx => hsides x (List.mem_cons_of_mem _ hx)
    by_cases hgt : er.1 > q.2
    · -- the head already starts beyond the new range: insert at 0
      have hpos : find_insert_pos (it :: rest) p q = 0 := by
        simp [find_insert_pos, first_idx_where, hp, her, hgt]
      rw [hpos]
      refine ⟨by simp, ?_⟩
      have hitright : q.2 + 1 < er.1 := by
        rcases hside with hL | hR
        · omega
        · exact hR
      intro x hx erx herx
      rcases List.mem_cons.mp hx with rfl | hx
      · rw [her] at herx
        injection herx with h'
        subst h'
        exact hitright
      · have := hhead x hx er erx her herx
        omega
    · -- the head is strictly left of the new range
      have hitleft : er.2 + 1 < q.1 := by
        rcases hside with hL | hR
        · exact hL
        · omega
      have hpred : (decide (it.path = p) &&
          (match it.range with
           | some er => decide (er.1 > q.2)
           | none => false)) = false := by
        simp [hp, her, hgt]
      obtain ⟨ihtake, ihdrop⟩ :=
        ih hpath' hranged' hnorm' hsorted' hsides' hq1 hq2
      cases hfi : first_idx_where (fun it =>
          decide (it.path = p) &&
            (match it.range with
             | some er => decide (er.1 > q.2)
             | none => false)) rest with
      | some i =>
        have hposr : find_insert_pos rest p q = i := by
          simp [find_insert_pos, hfi]
        have hpos : find_insert_pos (it :: rest) p q = i + 1 := by
          simp [find_insert_pos, first_idx_where, hpred, hfi]
        rw [hposr] at ihtake ihdrop
        rw [hpos]
        constructor
        · intro x hx erx herx
          rw [List.take_succ_cons] at hx
          rcases List.mem_cons.mp hx with rfl | hx
          · rw [her] at herx
            injection herx with h'
            subst h'
            exact hitleft
          · exact ihtake x hx erx herx
        · intro x hx erx herx
          rw [List.drop_succ_cons] at hx
          exact ihdrop x hx erx herx
      | none =>
        have hallf := first_idx_where_none hfi
        have hlast : last_same_path_idx p (it :: rest)
            = some ((it :: rest).length - 1) := by
          rw [last_same_path_idx_all hpath]
          simp
        have hpos : find_insert_pos (it :: rest) p q
            = (it :: rest).length := by
          simp [find_insert_pos, first_idx_where, hpred, hfi, hlast]
        rw [hpos]
        constructor
        · intro x hx erx herx
          rw [List.take_length] at hx
          rcases List.mem_cons.mp hx with rfl | hx
          · rw [her] at herx
            injection herx with h'
            subst h'
            exact hitleft
          · have hpx := hallf x hx
            have hpx' : ¬(erx.1 > q.2) := by
              have hxp := hpath' x hx
              simp [hxp, herx] at hpx
              omega
            rcases hsides' x hx erx herx with hL | hR
            · exact hL
            · omega
        · intro x hx erx herx
          rw [List.drop_length] at hx
          simp at hx

theorem add_selection_ranged_step (p : String) (items : List SelectionItem)
    (rng : Nat × Nat) (note : Option String)
    (hpath : ∀ it ∈ items, it.path = p)
    (hranged : ∀ it ∈ items, ∃ er : Nat × Nat, it.range = some er)
    (hnorm : ranges_normalized items)
    (hsorted : sorted_gap items)
    (h1 : 1 ≤ rng.1) (h2 : rng.1 ≤ rng.2) :
    (∀ it ∈ (add_selection items p (some rng) note).1, it.path = p) ∧
    (∀ it ∈ (add_selection items p (some rng) note).1,
      ∃ er : Nat × Nat, it.range = some er) ∧
    ranges_normalized (add_selection items p (some rng) note).1 ∧
    sorted_gap (add_selection items p (some rng) note).1 ∧
    (∀ m, covered_by (add_selection items p (some rng) note).1 m ↔
      (rng.1 ≤ m ∧ m ≤ rng.2) ∨ covered_by items m) := by
  have hnr : normalize_range rng = rng := normalize_range_eq_self h1 h2
  have huw : update_whole_file p (note.bind clean_note) items = none :=
    update_whole_file_all_ranged hranged
  have hsel : (add_selection items p (some rng) note).1
      = insert_at (merge_pass p items rng (note.bind clean_note)).2.2
          (find_insert_pos (merge_pass p items rng (note.bind clean_note)).2.2
            p (merge_pass p items rng (note.bind clean_note)).1)
          { path := p,
            range := some (merge_pass p items rng (note.bind clean_note)).1,
            note := if (note.bind clean_note).isSome then note.bind clean_note
              else (merge_pass p items rng (note.bind clean_note)).2.1 } := by
    show (insert_range items
        { path := p, range := some (normalize_range rng),
          note := note.bind clean_note } (normalize_range rng)).1 = _
    rw [hnr]
    simp only [insert_range, huw]
  obtain ⟨hksub, hsides, hcov⟩ :=
    merge_pass_spec p items rng (note.bind clean_note)
      hpath hnorm hranged hsorted h1 h2
  have hq := merge_pass_norm p items rng (note.bind clean_note) ⟨h1, h2⟩ hnorm
  have hkpath : ∀ x ∈ (merge_pass p items rng (note.bind clean_note)).2.2,
      x.path = p := fun x hx => hpath x (List.Sublist.mem hx hksub)
  have hkranged : ∀ x ∈ (merge_pass p items rng (note.bind clean_note)).2.2,
      ∃ er : Nat × Nat, x.range = some er :=
    fun x hx => hranged x (List.Sublist.mem hx hksub)
  have hknorm : ranges_normalized
      (merge_pass p items rng (note.bind clean_note)).2.2 :=
    fun x hx => hnorm x (List.Sublist.mem hx hksub)
  have hksorted : sorted_gap
      (merge_pass p items rng (note.bind clean_note)).2.2 :=
    List.Pairwise.sublist hksub hsorted
  obtain ⟨htake, hdrop⟩ :=
    insert_pos_spec p (merge_pass p items rng (note.bind clean_note)).1
      (merge_pass p items rng (note.bind clean_note)).2.2
      hkpath hkranged hknorm hksorted hsides hq.1 hq.2
  rw [hsel]
  refine ⟨?_, ?_, ?_, ?_, ?_⟩
  · intro x hx
    rcases mem_insert_at.mp hx with rfl | hx
    · rfl
    · exact hkpath x hx
  · intro x hx
    rcases mem_insert_at.mp hx with rfl | hx
    · exact ⟨_, rfl⟩
    · exact hkranged x hx
  · intro x hx r hr
    rcases mem_insert_at.mp hx with rfl | hx
    · simp only [Option.some.injEq] at hr
      subst hr
      exact hq
    · exact hknorm x hx r hr
  · apply pairwise_insert_at hksorted
    · intro y hy ra rb hra hrb
      simp only [Option.some.injEq] at hrb
      subst hrb
      exact htake y hy ra hra
    · intro y hy ra rb hra hrb
      simp only [Option.some.injEq] at hra
      subst hra
      exact hdrop y hy rb hrb
  · intro m
    rw [covered_by_insert_at]
    have hnewr : (∃ r : Nat × Nat,
        ({ path := p,
           range := some (merge_pass p items rng (note.bind clean_note)).1,
           note := if (note.bind clean_note).isSome then note.bind clean_note
             else (merge_pass p items rng (note.bind clean_note)).2.1 }
          : SelectionItem).range = some r ∧ r.1 ≤ m ∧ m ≤ r.2)
        ↔ ((merge_pass p items rng (note.bind clean_note)).1.1 ≤ m ∧
            m ≤ (merge_pass p items rng (note.bind clean_note)).1.2) := by
      simp
    rw [hnewr]
    have := hcov m
    tauto

theorem add_ranges_go (p : String) :
    ∀ (inputs : List ((Nat × Nat) × Option String))
      (st : List SelectionItem),
    (∀ i ∈ inputs, 1 ≤ i.1.1 ∧ i.1.1 ≤ i.1.2) →
    (∀ it ∈ st, it.path = p) →
    (∀ it ∈ st, ∃ er : Nat × Nat, it.range = some er) →
    ranges_normalized st → sorted_gap st →
    (∀ it ∈ inputs.foldl (fun s i => (add_selection s p (some i.1) i.2).1) st,
      it.path = p) ∧
    (∀ it ∈ inputs.foldl (fun s i => (add_selection s p (some i.1) i.2).1) st,
      ∃ er : Nat × Nat, it.range = some er) ∧
    ranges_normalized
      (inputs.foldl (fun s i => (add_selection s p (some i.1) i.2).1) st) ∧
    sorted_gap
      (inputs.foldl (fun s i => (add_selection s p (some i.1) i.2).1) st) ∧
    (∀ m, covered_by
        (inputs.foldl (fun s i => (add_selection s p (some i.1) i.2).1) st) m
      ↔ covered_by st m ∨ ∃ i ∈ inputs, i.1.1 ≤ m ∧ m ≤ i.1.2) := by
  intro inputs
  induction inputs with
  | nil =>
    intro st _ hpath hranged hnorm hsorted
    refine ⟨hpath, hranged, hnorm, hsorted, ?_⟩
    intro m
    simp
  | cons i rest ih =>
    intro st hin hpath hranged hnorm hsorted
    have hi := hin i (List.mem_cons_self _ _)
    obtain ⟨spath, sranged, snorm, ssorted, scov⟩ :=
      add_selection_ranged_step p st i.1 i.2 hpath hranged hnorm hsorted
        hi.1 hi.2
    obtain ⟨fpath, franged, fnorm, fsorted, fcov⟩ :=
      ih (add_selection st p (some i.1) i.2).1
        (fun j hj => hin j (List.mem_cons_of_mem _ hj))
        spath sranged snorm ssorted
    refine ⟨fpath, franged, fnorm, fsorted, ?_⟩
    intro m
    rw [List.foldl_cons, fcov m, scov m]
    have hsplit : (∃ j ∈ i :: rest, j.1.1 ≤ m ∧ m ≤ j.1.2)
        ↔ (i.1.1 ≤ m ∧ m ≤ i.1.2) ∨ ∃ j ∈ rest, j.1.1 ≤ m ∧ m ≤ j.1.2 := by
      simp
    rw [hsplit]
    tauto

/-- C1: folding any sequence of ranged `add_selection` calls for one path
over the empty store yields entries that are all ranged selections for that
path, pairwise non-mergeable (disjoint with a gap, in both orders of the
`ranges_mergeable` overlap-or-touch test), and whose ranges cover exactly
the union of the input ranges — the minimal disjoint, non-touching cover. -/
theorem C1_merge_closure (p : String)
    (inputs : List ((Nat × Nat) × Option String))
    (h : ∀ i ∈ inputs, 1 ≤ i.1.1 ∧ i.1.1 ≤ i.1.2) :
    (∀ it ∈ add_ranges p inputs,
      it.path = p ∧ ∃ er : Nat × Nat, it.range = some er ∧
        1 ≤ er.1 ∧ er.1 ≤ er.2) ∧
    List.Pairwise (fun a b => ∀ ra rb : Nat × Nat,
      a.range = some ra → b.range = some rb →
      ranges_mergeable ra rb = false ∧ ranges_mergeable rb ra = false)
      (add_ranges p inputs) ∧
    (∀ m : Nat, covered_by (add_ranges p inputs) m
      ↔ ∃ i ∈ inputs, i.1.1 ≤ m ∧ m ≤ i.1.2) := by
  obtain ⟨hpath, hranged, hnorm, hsorted, hcov⟩ := add_ranges_go p inputs []
    h (by simp) (by simp) (by intro x hx; simp at hx) List.Pairwise.nil
  unfold add_ranges
  refine ⟨?_, ?_, ?_⟩
  · intro it hit
    obtain ⟨er, her⟩ := hranged it hit
    exact ⟨hpath it hit, er, her, hnorm it hit er her⟩
  · refine hsorted.imp ?_
    intro a b hab ra rb hra hrb
    have hgap := hab ra rb hra hrb
    unfold ranges_mergeable
    constructor <;>
      · simp only [Bool.and_eq_false_iff, decide_eq_false_iff_not, not_le]
        omega
  · intro m
    rw [hcov m]
    have hnil : ¬covered_by [] m := by
      rintro ⟨x, hx, -⟩
      simp at hx
    tauto

/-- C1 witness: the scenario `add (5,10)` then `add (9,15)` covers line 12. -/
theorem C1_merge_closure_witness :
    (∀ i ∈ inputs_ex, 1 ≤ i.1.1 ∧ i.1.1 ≤ i.1.2) ∧
      covered_by (add_ranges "a" inputs_ex) 12 :=
  ⟨by decide, ((C1_merge_closure "a" inputs_ex (by decide)).2.2 12).mpr
    ⟨((9, 15), none), by decide, by decide⟩⟩

end Llmctx
